/-
Verification of the birdnet-go disk-retention engine (package `diskmanager`).

The data model and operations below are a shallow embedding of the
retention/eviction engine: filename parsing with extension allow-listing,
the inventory scanner, the lock filter, the age- and usage-based eviction
policies, the per-species quota guard and the deletion executor.

The repository ships the package's test surface (MockDB, the eligibility,
filter and basic-functionality tests); the engine's own function bodies are
not part of the provided sources, so each operation is modelled from the
specification, keeping the names and signatures the tests exercise
(`parseFileInfo(path, info)`, `GetAudioFiles(dir, allowedTypes, db, debug)`,
`allowedFileTypes`, `FileInfo{Path, Species, Confidence, Timestamp, Size,
Locked}`).

Paths are strings; timestamps and durations are integers (a calendar
timestamp is encoded injectively and order-preservingly); sizes are natural
numbers of bytes; the free-space threshold is expressed in bytes.
-/

import Mathlib

set_option maxHeartbeats 1000000

/-! ### String helpers (modelling `filepath.Base`, `filepath.Ext`, `strings.Split`) -/

/-- Split a character list at every occurrence of the separator. -/
def splitOnChar (sep : Char) : List Char → List (List Char)
  | [] => [[]]
  | c :: cs =>
    let r := splitOnChar sep cs
    if c = sep then [] :: r
    else
      match r with
      | [] => [[c]]
      | g :: gs => (c :: g) :: gs

/-- Join character groups with a separator character. -/
def joinWith (sep : Char) : List (List Char) → List Char
  | [] => []
  | [g] => g
  | g :: gs => g ++ sep :: joinWith sep gs

/-- Modelled from the spec: the final path component, as `filepath.Base`. -/
def baseName (p : String) : String :=
  String.mk ((splitOnChar '/' p.data).getLastD [])

/-- Modelled from the spec: the filename extension from the final dot
(including the dot), as `filepath.Ext`; empty when there is no dot. -/
def extOf (name : String) : String :=
  let parts := splitOnChar '.' name.data
  if parts.length ≤ 1 then "" else String.mk ('.' :: parts.getLastD [])

/-- The filename with its extension removed. -/
def stemOf (name : String) : String :=
  let parts := splitOnChar '.' name.data
  if parts.length ≤ 1 then name else String.mk (joinWith '.' parts.dropLast)

/-- ASCII lowercasing of a string, character by character. -/
def lowerStr (s : String) : String :=
  String.mk (s.data.map Char.toLower)

/-- Parse a non-empty all-digit character list into a natural number. -/
def digitsToNat? (cs : List Char) : Option Nat :=
  if cs = [] then none
  else cs.foldl (fun acc c => match acc with
    | none => none
    | some n => if c.isDigit then some (n * 10 + (c.toNat - 48)) else none) (some 0)

/-! ### Filename parser -/

/-- Modelled from the spec: the parse-error taxonomy of the filename parser —
`ErrFileTypeNotEligible` ("file type not eligible for cleanup operation") and
`ErrMalformedFilename`. -/
inductive ParseError where
  | fileTypeNotEligible
  | malformedFilename
deriving DecidableEq, Repr

/-- The package-level default allow-list of audio extensions. -/
def allowedFileTypes : List String := [".wav", ".mp3", ".flac", ".aac", ".opus"]

/-- Modelled from the spec: case-insensitive membership of an extension in the
configured allow-list. -/
def extAllowed (allowed : List String) (ext : String) : Bool :=
  allowed.any (fun a => lowerStr a == lowerStr ext)

/-- Modelled from the spec: one audio file's derived identity (the `FileInfo`
record the tests construct). `Locked` defaults to false at parse time and is
populated by the lock filter. -/
structure FileInfo where
  Path : String
  Species : String
  Confidence : Nat
  Timestamp : Int
  Size : Nat
  Locked : Bool
deriving DecidableEq, Repr

/-- The size/modification metadata supplied alongside a path (the `os.FileInfo`
argument of `parseFileInfo`). -/
structure FileMeta where
  Size : Nat
  ModTime : Int
deriving DecidableEq, Repr

/-- Modelled from the spec: parse `YYYYMMDDTHHMMSS` (the timestamp segment with
its trailing `Z` removed) into an injective, order-preserving integer
encoding, validating calendar ranges. -/
def parseTimestamp? (cs : List Char) : Option Int :=
  match splitOnChar 'T' cs with
  | [d, t] =>
    if d.length = 8 ∧ t.length = 6 then
      match digitsToNat? (d.take 4), digitsToNat? ((d.drop 4).take 2),
            digitsToNat? (d.drop 6), digitsToNat? (t.take 2),
            digitsToNat? ((t.drop 2).take 2), digitsToNat? (t.drop 4) with
      | some y, some mo, some da, some h, some mi, some s =>
        if 1 ≤ mo ∧ mo ≤ 12 ∧ 1 ≤ da ∧ da ≤ 31 ∧ h ≤ 23 ∧ mi ≤ 59 ∧ s ≤ 59 then
          some (Int.ofNat (((((y * 100 + mo) * 100 + da) * 100 + h) * 100 + mi) * 100 + s))
        else none
      | _, _, _, _, _, _ => none
    else none
  | _ => none

/-- Modelled from the spec: extract species, confidence and timestamp from the
structured filename segments `species_confidenceP_timestampZ.ext`; `none` when
the filename does not match the expected shape. -/
def parseSegments? (name : String) : Option (String × Nat × Int) :=
  let parts := splitOnChar '_' (stemOf name).data
  if parts.length < 3 then none
  else
    let tsPart := parts.getLastD []
    let confPart := parts.dropLast.getLastD []
    let species := String.mk (joinWith '_' (parts.dropLast.dropLast))
    match confPart.getLast? with
    | some 'p' =>
      match digitsToNat? confPart.dropLast with
      | some conf =>
        if conf ≤ 100 then
          match tsPart.getLast? with
          | some 'Z' =>
            match parseTimestamp? tsPart.dropLast with
            | some ts => some (species, conf, ts)
            | none => none
          | _ => none
        else none
      | none => none
    | _ => none

/-- Whether a filename has the structured clip shape
`species_confidenceP_timestampZ.ext` (independent of the allow-list). -/
def hasClipShape (name : String) : Bool :=
  (parseSegments? name).isSome

instance {ε α : Type} [DecidableEq ε] [DecidableEq α] : DecidableEq (Except ε α)
  | .ok a, .ok b => if h : a = b then .isTrue (by rw [h]) else .isFalse (by simp [h])
  | .ok _, .error _ => .isFalse (by simp)
  | .error _, .ok _ => .isFalse (by simp)
  | .error a, .error b => if h : a = b then .isTrue (by rw [h]) else .isFalse (by simp [h])

/-- Modelled from the spec: the filename parser. Given a file path and its
size/modification metadata it (1) checks the extension case-insensitively
against the allow-list, failing with `ErrFileTypeNotEligible`; (2) extracts
species, confidence and timestamp from the structured segments, failing with
`ErrMalformedFilename`; (3) takes the size from the supplied metadata. It is a
pure function of its two data arguments: no filesystem access occurs. -/
def parseFileInfo (allowed : List String) (path : String) (meta : FileMeta) :
    Except ParseError FileInfo :=
  if extAllowed allowed (extOf (baseName path)) then
    match parseSegments? (baseName path) with
    | some (sp, conf, ts) =>
      .ok { Path := path, Species := sp, Confidence := conf, Timestamp := ts,
            Size := meta.Size, Locked := false }
    | none => .error .malformedFilename
  else .error .fileTypeNotEligible

/-! ### Inventory scanner -/

/-- One directory entry seen by the scan: its full path and the filesystem
metadata that accompanies it. -/
structure DirEntry where
  Path : String
  Size : Nat
  ModTime : Int
deriving DecidableEq, Repr

/-- Modelled from the spec: the database collaborator consumed by the engine —
`GetDeletionInfo` (the deletion audit log, used to avoid reprocessing) and
`GetLockedNotesClipPaths` (reviewer-protected clip paths). The test double
`MockDB` is `emptyDB` below. -/
structure DB where
  deletionRecords : List String
  lockedPaths : List String
deriving DecidableEq, Repr

/-- The `MockDB` of the test surface: no deletion records, no locked paths. -/
def emptyDB : DB := { deletionRecords := [], lockedPaths := [] }

/-- Modelled from the spec: the inventory scanner `GetAudioFiles`. It walks the
entries of the scan root, invokes the parser per entry, collects the valid
`FileInfo` records (marking those the database reports locked and skipping
those with a prior deletion record) and collects per-entry parse failures as
(path, error) pairs; a parse failure never aborts the scan of the remainder. -/
def GetAudioFiles (entries : List DirEntry) (allowedTypes : List String) (db : DB) :
    List FileInfo × List (String × ParseError) :=
  match entries with
  | [] => ([], [])
  | e :: rest =>
    let r := GetAudioFiles rest allowedTypes db
    match parseFileInfo allowedTypes e.Path ⟨e.Size, e.ModTime⟩ with
    | .ok f =>
      if db.deletionRecords.contains (baseName f.Path) then r
      else ({ f with Locked := db.lockedPaths.contains f.Path } :: r.1, r.2)
    | .error err => (r.1, (e.Path, err) :: r.2)

/-! ### Policies, quota guard, executor -/

/-- Modelled from the spec: the age policy — select every record whose
`capturedAt` is older than `now − horizon`; `now` is sampled once per pass and
threaded through. -/
def ageBasedFilter (files : List FileInfo) (now maxAge : Int) : List FileInfo :=
  files.filter (fun f => decide (f.Timestamp < now - maxAge))

/-- Oldest-first candidate order: earlier capture time first, ties broken by
path for determinism. -/
def oldestFirstRel (a b : FileInfo) : Prop :=
  a.Timestamp < b.Timestamp ∨ (a.Timestamp = b.Timestamp ∧ a.Path ≤ b.Path)

instance oldestFirstRel.instDecidableRel : DecidableRel oldestFirstRel := fun a b =>
  if h1 : a.Timestamp < b.Timestamp then .isTrue (Or.inl h1)
  else if h2 : a.Timestamp = b.Timestamp then
    if h3 : a.Path ≤ b.Path then .isTrue (Or.inr ⟨h2, h3⟩)
    else .isFalse (fun hc => hc.elim h1 (fun hp => h3 hp.2))
  else .isFalse (fun hc => hc.elim h1 (fun hp => h2 hp.1))

/-- Newest-first candidate order: later capture time first, ties broken by
path. -/
def newestFirstRel (a b : FileInfo) : Prop :=
  b.Timestamp < a.Timestamp ∨ (a.Timestamp = b.Timestamp ∧ a.Path ≤ b.Path)

instance newestFirstRel.instDecidableRel : DecidableRel newestFirstRel := fun a b =>
  if h1 : b.Timestamp < a.Timestamp then .isTrue (Or.inl h1)
  else if h2 : a.Timestamp = b.Timestamp then
    if h3 : a.Path ≤ b.Path then .isTrue (Or.inr ⟨h2, h3⟩)
    else .isFalse (fun hc => hc.elim h1 (fun hp => h3 hp.2))
  else .isFalse (fun hc => hc.elim h1 (fun hp => h2 hp.1))

/-- Sort a candidate list oldest-first (ties by path). -/
def sortOldestFirst (l : List FileInfo) : List FileInfo :=
  l.insertionSort oldestFirstRel

/-- Sort a candidate list newest-first (ties by path). -/
def sortNewestFirst (l : List FileInfo) : List FileInfo :=
  l.insertionSort newestFirstRel

/-- Total size in bytes of a list of records. -/
def sumSizes (l : List FileInfo) : Nat :=
  (l.map (·.Size)).sum

/-- Greedy selection core of the usage policy: take records in the given
order while the number of bytes still needed is positive; return the
selection and the unmet shortfall in bytes. -/
def selectOldest : List FileInfo → Nat → List FileInfo × Nat
  | _, 0 => ([], 0)
  | [], n + 1 => ([], n + 1)
  | f :: rest, n + 1 =>
    let r := selectOldest rest (n + 1 - f.Size)
    (f :: r.1, r.2)

/-- Modelled from the spec: the usage policy. Given the filtered inventory,
the current free bytes and the target free-space threshold in bytes, it
decides whether eviction is required at all (no selection when the threshold
is already met), then repeatedly selects the single oldest remaining eligible
candidate (ties broken by path) until projected free space meets the
threshold; it caps selections at the eligible population and, when the
threshold is unreachable, returns the whole eligible set together with the
shortfall in bytes. -/
def usageBasedSelection (files : List FileInfo) (currentFree threshold : Nat) :
    List FileInfo × Nat :=
  selectOldest (sortOldestFirst files) (threshold - currentFree)

/-- Modelled from the spec: the species quota guard's removal set — for each
species with more candidates than its post-deletion minimum allows, the paths
of the most recently captured excess candidates. -/
def quotaRemovalPaths (inventory candidates : List FileInfo) (minFor : String → Nat) :
    List String :=
  ((candidates.map (·.Species)).dedup).flatMap (fun s =>
    let total := (inventory.filter (fun f => f.Species == s)).length
    let cs := candidates.filter (fun f => f.Species == s)
    let removeCount := cs.length - (total - minFor s)
    ((sortNewestFirst cs).take removeCount).map (·.Path))

/-- Modelled from the spec: the species quota guard — remove from the
candidate set, most recently captured first, just enough entries per species
that the post-deletion surviving count for each species stays at or above its
configured minimum. -/
def speciesQuotaGuard (inventory candidates : List FileInfo) (minFor : String → Nat) :
    List FileInfo :=
  let rem := quotaRemovalPaths inventory candidates minFor
  candidates.filter (fun f => !(rem.contains f.Path))

/-- Modelled from the spec: per-file deletion outcomes the filesystem can
report to the executor. -/
inductive DeleteError where
  | permissionDenied
  | alreadyGone
  | ioError
deriving DecidableEq, Repr

/-- Modelled from the spec: one persisted record of a completed deletion. -/
structure DeletionAuditEntry where
  filename : String
  deletedAt : Int
deriving DecidableEq, Repr

/-- Summary returned by the deletion executor. -/
structure DeletionResult where
  deleted : Nat
  failures : List (String × DeleteError)
  audit : List DeletionAuditEntry
deriving DecidableEq, Repr

/-- Modelled from the spec: the deletion executor. Each candidate is attempted
independently against the filesystem outcome map `fs`: on success exactly one
audit entry is appended; on failure the error is recorded against that single
path and the remaining candidates are still processed. -/
def deletionExecutor (fs : String → Option DeleteError) (now : Int) :
    List FileInfo → DeletionResult
  | [] => { deleted := 0, failures := [], audit := [] }
  | f :: rest =>
    let r := deletionExecutor fs now rest
    match fs f.Path with
    | none =>
      { deleted := r.deleted + 1, failures := r.failures,
        audit := { filename := baseName f.Path, deletedAt := now } :: r.audit }
    | some e =>
      { deleted := r.deleted, failures := (f.Path, e) :: r.failures, audit := r.audit }

/-! ### Configuration and the eviction pass -/

/-- Modelled from the spec: the configured retention mode — the two top-level
policies are alternative trigger strategies. -/
inductive RetentionMode where
  | age
  | usage
deriving DecidableEq, Repr

/-- Modelled from the spec: the configuration surface of the engine (durations
in the timestamp unit, the free-space threshold in bytes). -/
structure Config where
  mode : RetentionMode
  maxAge : Int
  minFreeBytes : Nat
  minClipsPerSpecies : Nat
  perSpeciesMinOverride : List (String × Nat)
  allowedExtensions : List String
deriving Repr

/-- The per-species minimum: the override entry for the species when present,
otherwise the global minimum. -/
def minFor (cfg : Config) (s : String) : Nat :=
  match cfg.perSpeciesMinOverride.lookup s with
  | some n => n
  | none => cfg.minClipsPerSpecies

/-- The inputs one pass consumes: the scan snapshot, the locked-path set read
once at the start of the pass, the reference time `now` sampled once, and the
current free bytes of the filesystem. -/
structure PassInput where
  inventory : List FileInfo
  lockedPaths : List String
  now : Int
  currentFree : Nat

/-- Modelled from the spec: the outcome of running policies over a clip set. -/
structure RetentionDecision where
  toDelete : List String
  skippedLocked : Nat
  skippedQuota : Nat
  shortfall : Nat
deriving DecidableEq, Repr

/-- The paths the lock filter treats as protected: the externally supplied
locked set plus every record already marked locked in the snapshot. -/
def lockedPathSet (inp : PassInput) : List String :=
  inp.lockedPaths ++ (inp.inventory.filter (·.Locked)).map (·.Path)

/-- Modelled from the spec: one eviction pass over an immutable snapshot —
lock filter, then the configured policy (age or usage), then the species
quota guard; the guard counts survivors against the full inventory. -/
def runPass (cfg : Config) (inp : PassInput) : RetentionDecision :=
  let lockedSet := lockedPathSet inp
  let filtered := inp.inventory.filter (fun f => !(lockedSet.contains f.Path))
  let policyOut : List FileInfo × Nat :=
    match cfg.mode with
    | .age => (ageBasedFilter filtered inp.now cfg.maxAge, 0)
    | .usage => usageBasedSelection filtered inp.currentFree cfg.minFreeBytes
  let candidates := policyOut.1
  let final := speciesQuotaGuard inp.inventory candidates (minFor cfg)
  { toDelete := final.map (·.Path)
    skippedLocked := inp.inventory.length - filtered.length
    skippedQuota := candidates.length - final.length
    shortfall := policyOut.2 }

/-- Modelled from the spec: a full pass starting from the directory entries —
scan the root into the snapshot via `GetAudioFiles`, then run the pass with
the database's locked paths as the lock set. -/
def scanAndRun (cfg : Config) (entries : List DirEntry) (db : DB) (now : Int)
    (currentFree : Nat) : RetentionDecision :=
  runPass cfg
    { inventory := (GetAudioFiles entries cfg.allowedExtensions db).1
      lockedPaths := db.lockedPaths
      now := now
      currentFree := currentFree }

/-! ### Concrete fixtures for the spec's scenarios -/

/-- One day in seconds. -/
def daySec : Int := 86400

/-- The fixed reference time of the concrete pass scenarios. -/
def nowFix : Int := 1000000

/-- Build a clip record. -/
def mkClip (p sp : String) (conf : Nat) (ts : Int) (size : Nat) (locked : Bool) : FileInfo :=
  { Path := p, Species := sp, Confidence := conf, Timestamp := ts, Size := size,
    Locked := locked }

/-- Scenario A inventory: five `.wav` files aged 1, 2, 30, 60, 90 days, none
locked (paths as in the repository's basic-functionality test). -/
def invScenarioA : List FileInfo :=
  [mkClip "/test/owl_80p_20210102T150405Z.wav" "owl" 80 (nowFix - 1 * daySec) 1024 false,
   mkClip "/test/duck_70p_20210102T150405Z.wav" "duck" 70 (nowFix - 2 * daySec) 1024 false,
   mkClip "/test/owl_90p_20200102T150405Z.wav" "owl" 90 (nowFix - 30 * daySec) 1024 false,
   mkClip "/test/duck_60p_20200102T150405Z.wav" "duck" 60 (nowFix - 60 * daySec) 1024 false,
   mkClip "/test/owl_95p_20200102T150405Z.wav" "owl" 95 (nowFix - 90 * daySec) 1024 false]

/-- Age-mode configuration with a 7-day horizon, no species minimum. -/
def cfgAge7 : Config :=
  { mode := .age, maxAge := 7 * daySec, minFreeBytes := 0, minClipsPerSpecies := 0,
    perSpeciesMinOverride := [], allowedExtensions := allowedFileTypes }

/-- Scenario B inventory: as scenario A but the 90-day file is locked. -/
def invScenarioB : List FileInfo :=
  invScenarioA.dropLast ++
    [mkClip "/test/owl_95p_20200102T150405Z.wav" "owl" 95 (nowFix - 90 * daySec) 1024 true]

/-- Scenario C inventory: three "owl" clips and one "duck" clip, all old
enough that the age policy flags all four. -/
def invScenarioC : List FileInfo :=
  [mkClip "/test/owl1_80p_20200102T150405Z.wav" "owl" 80 (nowFix - 30 * daySec) 10 false,
   mkClip "/test/owl2_80p_20200103T150405Z.wav" "owl" 80 (nowFix - 29 * daySec) 10 false,
   mkClip "/test/owl3_80p_20200104T150405Z.wav" "owl" 80 (nowFix - 28 * daySec) 10 false,
   mkClip "/test/duck1_80p_20200102T150405Z.wav" "duck" 80 (nowFix - 30 * daySec) 10 false]

/-- Directory entries containing the eligibility test's `.exe` file next to a
well-formed `.wav` file. -/
def entriesExe : List DirEntry :=
  [{ Path := "/t/owl_80p_20210102T150405Z.wav", Size := 1024, ModTime := 0 },
   { Path := "/t/system_80p_20210102T150405Z.exe", Size := 1024, ModTime := 0 }]

/-- Directory entries mixing a well-formed allow-listed file with a malformed
file that still carries an allow-listed extension. -/
def entriesMalformed : List DirEntry :=
  [{ Path := "/t/owl_80p_20210102T150405Z.wav", Size := 10, ModTime := 0 },
   { Path := "/t/owl.wav", Size := 10, ModTime := 0 }]

/-- Scenario E candidates: three clips whose middle file will fail. -/
def candsScenarioE : List FileInfo :=
  [mkClip "/t/e1_80p_20210102T150405Z.wav" "owl" 80 1 10 false,
   mkClip "/t/e2_80p_20210102T150405Z.wav" "owl" 80 2 10 false,
   mkClip "/t/e3_80p_20210102T150405Z.wav" "owl" 80 3 10 false]

/-- Scenario E filesystem: the middle candidate's removal fails with a
permission error; every other removal succeeds. -/
def fsScenarioE : String → Option DeleteError := fun p =>
  if p = "/t/e2_80p_20210102T150405Z.wav" then some .permissionDenied else none

/-- Usage-scenario inventory: three clips of 100 bytes, distinct ages, listed
out of age order. -/
def invUsage : List FileInfo :=
  [mkClip "/t/u3_80p_20210103T150405Z.wav" "owl" 80 30 100 false,
   mkClip "/t/u1_80p_20210101T150405Z.wav" "owl" 80 10 100 false,
   mkClip "/t/u2_80p_20210102T150405Z.wav" "owl" 80 20 100 false]

/-- A one-clip inventory for the under-populated-species corner: the species
cannot reach a minimum of 2 no matter what the guard removes. -/
def invSingleDuck : List FileInfo :=
  [mkClip "/test/duck9_80p_20200102T150405Z.wav" "duck" 80 (nowFix - 30 * daySec) 10 false]

/-! ### Parser inversion lemmas -/

theorem parseFileInfo_ok_inv {allowed : List String} {path : String} {meta : FileMeta}
    {f : FileInfo} (h : parseFileInfo allowed path meta = .ok f) :
    extAllowed allowed (extOf (baseName path)) = true ∧ f.Path = path ∧
    f.Size = meta.Size ∧ f.Locked = false := by
  unfold parseFileInfo at h
  by_cases hx : extAllowed allowed (extOf (baseName path)) = true
  · rw [if_pos hx] at h
    cases hps : parseSegments? (baseName path) with
    | none => rw [hps] at h; exact absurd h (by simp)
    | some v =>
      obtain ⟨sp, conf, ts⟩ := v
      rw [hps] at h
      simp only [Except.ok.injEq] at h
      exact ⟨hx, by rw [← h], by rw [← h], by rw [← h]⟩
  · rw [if_neg hx] at h
    exact absurd h (by simp)

theorem parseFileInfo_ok_of_shape {allowed : List String} {path : String} (meta : FileMeta)
    (hx : extAllowed allowed (extOf (baseName path)) = true)
    (hs : hasClipShape (baseName path) = true) :
    ∃ f, parseFileInfo allowed path meta = .ok f ∧ f.Size = meta.Size ∧ f.Path = path := by
  unfold hasClipShape at hs
  cases hps : parseSegments? (baseName path) with
  | none => rw [hps] at hs; exact absurd hs (by simp)
  | some v =>
    obtain ⟨sp, conf, ts⟩ := v
    refine ⟨⟨path, sp, conf, ts, meta.Size, false⟩, ?_, rfl, rfl⟩
    unfold parseFileInfo
    rw [if_pos hx, hps]

theorem parseFileInfo_eligible_iff {allowed : List String} {path : String} (meta : FileMeta)
    (hs : hasClipShape (baseName path) = true) :
    parseFileInfo allowed path meta = .error .fileTypeNotEligible ↔
      extAllowed allowed (extOf (baseName path)) = false := by
  constructor
  · intro h
    by_cases hx : extAllowed allowed (extOf (baseName path)) = true
    · obtain ⟨f, hf, -⟩ := @parseFileInfo_ok_of_shape allowed path meta hx hs
      rw [h] at hf
      exact absurd hf (by simp)
    · simpa using hx
  · intro hx
    unfold parseFileInfo
    rw [if_neg (by simp [hx])]

/-! ### Scanner lemmas -/

theorem GetAudioFiles_mem_inv {entries : List DirEntry} {allowed : List String} {db : DB}
    {r : FileInfo} (h : r ∈ (GetAudioFiles entries allowed db).1) :
    ∃ e ∈ entries, ∃ f, parseFileInfo allowed e.Path ⟨e.Size, e.ModTime⟩ = .ok f ∧
      r = { f with Locked := db.lockedPaths.contains f.Path } := by
  induction entries with
  | nil => simp [GetAudioFiles] at h
  | cons e rest ih =>
    simp only [GetAudioFiles] at h
    split at h
    · split at h
      · obtain ⟨e', he', hrest⟩ := ih h
        exact ⟨e', List.mem_cons_of_mem _ he', hrest⟩
      · rcases List.mem_cons.mp h with h1 | h2
        · next f heq _ => exact ⟨e, List.mem_cons_self _ _, f, heq, h1⟩
        · obtain ⟨e', he', hrest⟩ := ih h2
          exact ⟨e', List.mem_cons_of_mem _ he', hrest⟩
    · obtain ⟨e', he', hrest⟩ := ih h
      exact ⟨e', List.mem_cons_of_mem _ he', hrest⟩

theorem GetAudioFiles_ext_allowed {entries : List DirEntry} {allowed : List String} {db : DB}
    {r : FileInfo} (h : r ∈ (GetAudioFiles entries allowed db).1) :
    extAllowed allowed (extOf (baseName r.Path)) = true := by
  obtain ⟨e, -, f, hp, hr⟩ := GetAudioFiles_mem_inv h
  obtain ⟨hx, hpath, -, -⟩ := parseFileInfo_ok_inv hp
  have hrp : r.Path = f.Path := by rw [hr]
  rw [hrp, hpath]
  exact hx

/-! ### Policy and guard subset lemmas -/

theorem selectOldest_append_eq (l : List FileInfo) (n : Nat) :
    ∃ t, (selectOldest l n).1 ++ t = l := by
  induction l generalizing n with
  | nil => cases n <;> exact ⟨[], rfl⟩
  | cons f rest ih =>
    cases n with
    | zero => exact ⟨f :: rest, rfl⟩
    | succ m =>
      obtain ⟨t, ht⟩ := ih (m + 1 - f.Size)
      exact ⟨t, by simp only [selectOldest, List.cons_append, ht]⟩

theorem mem_of_mem_selectOldest {l : List FileInfo} {n : Nat} {g : FileInfo}
    (h : g ∈ (selectOldest l n).1) : g ∈ l := by
  obtain ⟨t, ht⟩ := selectOldest_append_eq l n
  rw [← ht]
  exact List.mem_append_left _ h

theorem sortOldestFirst_perm (l : List FileInfo) : List.Perm (sortOldestFirst l) l :=
  List.perm_insertionSort _ l

theorem sortNewestFirst_perm (l : List FileInfo) : List.Perm (sortNewestFirst l) l :=
  List.perm_insertionSort _ l

theorem mem_of_mem_usageBasedSelection {files : List FileInfo} {free thr : Nat} {g : FileInfo}
    (h : g ∈ (usageBasedSelection files free thr).1) : g ∈ files :=
  (sortOldestFirst_perm files).mem_iff.mp (mem_of_mem_selectOldest h)

theorem speciesQuotaGuard_subset {inventory candidates : List FileInfo}
    {minF : String → Nat} {g : FileInfo}
    (h : g ∈ speciesQuotaGuard inventory candidates minF) : g ∈ candidates := by
  unfold speciesQuotaGuard at h
  exact (List.mem_filter.mp h).1

theorem runPass_toDelete_inv {cfg : Config} {inp : PassInput} {p : String}
    (h : p ∈ (runPass cfg inp).toDelete) :
    ∃ f ∈ inp.inventory, f.Path = p ∧ (lockedPathSet inp).contains f.Path = false := by
  simp only [runPass] at h
  obtain ⟨g, hg, hgp⟩ := List.mem_map.mp h
  have hcand := speciesQuotaGuard_subset hg
  have hfiltered : g ∈ inp.inventory.filter (fun f => !((lockedPathSet inp).contains f.Path)) := by
    cases hm : cfg.mode with
    | age =>
      rw [hm] at hcand
      exact (List.mem_filter.mp hcand).1
    | usage =>
      rw [hm] at hcand
      exact mem_of_mem_usageBasedSelection hcand
  obtain ⟨hmem, hlf⟩ := List.mem_filter.mp hfiltered
  refine ⟨g, hmem, hgp, ?_⟩
  simpa using hlf

/-! ### Claim C5 — age policy selects exactly the too-old records -/

/-- C5: the age policy selects as deletion candidates exactly the records
whose capture time is older than `now − horizon` (with `now` a single
per-pass value), and on scenario A's inventory (five `.wav` files aged 1, 2,
30, 60, 90 days, `maxAge` = 7 days, none locked, `minClipsPerSpecies` = 0)
the final candidate set of the pass is exactly the 30-, 60- and 90-day
files. -/
theorem ageBasedFilter_selects_exactly_older :
    (∀ (files : List FileInfo) (now maxAge : Int) (f : FileInfo),
        f ∈ ageBasedFilter files now maxAge ↔ f ∈ files ∧ f.Timestamp < now - maxAge) ∧
    (runPass cfgAge7 ⟨invScenarioA, [], nowFix, 0⟩).toDelete =
      ["/test/owl_90p_20200102T150405Z.wav", "/test/duck_60p_20200102T150405Z.wav",
       "/test/owl_95p_20200102T150405Z.wav"] := by
  constructor
  · intro files now maxAge f
    unfold ageBasedFilter
    simp [List.mem_filter]
  · decide

/-! ### Claim C9 — age policy is idempotent -/

/-- C9: the age policy is idempotent — applying it twice to the same
inventory with the same `now` (and the same horizon) yields the same
candidate set as applying it once. -/
theorem ageBasedFilter_idempotent (files : List FileInfo) (now maxAge : Int) :
    ageBasedFilter (ageBasedFilter files now maxAge) now maxAge =
      ageBasedFilter files now maxAge := by
  unfold ageBasedFilter
  rw [List.filter_filter]
  congr 1
  funext f
  exact Bool.and_self _

/-! ### Claim C2 — locked clips are never deleted -/

/-- C2: a clip record marked locked never has its path in the final
`toDelete` set of a pass, regardless of its age, of disk pressure and of the
configured policy. -/
theorem runPass_locked_never_deleted (cfg : Config) (inp : PassInput) (f : FileInfo)
    (hmem : f ∈ inp.inventory) (hlock : f.Locked = true) :
    f.Path ∉ (runPass cfg inp).toDelete := by
  intro hdel
  obtain ⟨g, -, hgp, hnc⟩ := runPass_toDelete_inv hdel
  have hfl : f ∈ inp.inventory.filter (·.Locked) :=
    List.mem_filter.mpr ⟨hmem, by rw [hlock]⟩
  have hfp : f.Path ∈ lockedPathSet inp :=
    List.mem_append_right _ (List.mem_map_of_mem _ hfl)
  have : (lockedPathSet inp).contains g.Path = true := by
    rw [hgp]
    exact List.elem_iff.mpr hfp
  rw [this] at hnc
  exact absurd hnc (by simp)

/-- Witness for C2: scenario B — the locked 90-day file's path is absent from
the pass's deletion set. -/
theorem runPass_locked_never_deleted_witness :
    "/test/owl_95p_20200102T150405Z.wav" ∉
      (runPass cfgAge7 ⟨invScenarioB, [], nowFix, 0⟩).toDelete :=
  runPass_locked_never_deleted cfgAge7 _
    (mkClip "/test/owl_95p_20200102T150405Z.wav" "owl" 95 (nowFix - 90 * daySec) 1024 true)
    (by decide) rfl

/-! ### Claim C1 — extension allow-listing is a hard boundary -/

/-- C1: for a path whose filename has the structured clip shape, the parser
fails with `ErrFileTypeNotEligible` exactly when the extension (compared
case-insensitively) is not in the configured allow-list; and a path whose
extension is not allow-listed is excluded from the deletion set of every
pass, for any policy configuration. -/
theorem parseFileInfo_eligibility_boundary :
    (∀ (allowed : List String) (path : String) (meta : FileMeta),
        hasClipShape (baseName path) = true →
        (parseFileInfo allowed path meta = .error .fileTypeNotEligible ↔
          extAllowed allowed (extOf (baseName path)) = false)) ∧
    (∀ (cfg : Config) (entries : List DirEntry) (db : DB) (now : Int) (free : Nat)
        (p : String),
        extAllowed cfg.allowedExtensions (extOf (baseName p)) = false →
        p ∉ (scanAndRun cfg entries db now free).toDelete) := by
  constructor
  · intro allowed path meta hs
    exact parseFileInfo_eligible_iff meta hs
  · intro cfg entries db now free p hbad hdel
    unfold scanAndRun at hdel
    obtain ⟨g, hg, hgp, -⟩ := runPass_toDelete_inv hdel
    have hok := GetAudioFiles_ext_allowed hg
    rw [hgp, hbad] at hok
    exact absurd hok (by simp)

/-- Witness for C1: the eligibility test's `system_80p_20210102T150405Z.exe`
fails with `ErrFileTypeNotEligible` and is excluded from the deletion set of
a concrete pass over a directory containing it. -/
theorem parseFileInfo_eligibility_boundary_witness :
    parseFileInfo allowedFileTypes "/t/system_80p_20210102T150405Z.exe" ⟨1024, 0⟩ =
      .error .fileTypeNotEligible ∧
    "/t/system_80p_20210102T150405Z.exe" ∉
      (scanAndRun cfgAge7 entriesExe emptyDB nowFix 0).toDelete :=
  ⟨(parseFileInfo_eligibility_boundary.1 allowedFileTypes _ _ (by decide)).mpr (by decide),
   parseFileInfo_eligibility_boundary.2 cfgAge7 entriesExe emptyDB nowFix 0 _ (by decide)⟩

/-! ### Claim C8 — the parser is pure over its inputs -/

/-- C8: `parseFileInfo` is a pure function of the path and the supplied
size/modification metadata: it takes no filesystem argument at all in this
embedding, two calls with equal inputs yield equal results, and for an
allow-listed, well-formed filename it succeeds — no file need exist at the
path — taking the record's size from the supplied metadata. -/
theorem parseFileInfo_pure (allowed : List String) (path : String) (m1 m2 : FileMeta)
    (hx : extAllowed allowed (extOf (baseName path)) = true)
    (hs : hasClipShape (baseName path) = true) :
    (∃ f, parseFileInfo allowed path m1 = .ok f ∧ f.Size = m1.Size ∧ f.Path = path) ∧
    (m1 = m2 → parseFileInfo allowed path m1 = parseFileInfo allowed path m2) :=
  ⟨parseFileInfo_ok_of_shape m1 hx hs, fun h => by rw [h]⟩

/-- Witness for C8: a well-formed `.wav` filename under a directory that
need not exist parses successfully with the supplied size 1234. -/
theorem parseFileInfo_pure_witness :
    ∃ f, parseFileInfo allowedFileTypes "/missing/owl_80p_20210102T150405Z.wav" ⟨1234, 5⟩ =
        .ok f ∧ f.Size = 1234 ∧ f.Path = "/missing/owl_80p_20210102T150405Z.wav" :=
  (parseFileInfo_pure allowedFileTypes "/missing/owl_80p_20210102T150405Z.wav"
    ⟨1234, 5⟩ ⟨1234, 5⟩ (by decide) (by decide)).1

/-! ### Claim C10 — empty-history database consultation removes nothing -/

/-- C10: the scanner takes the audit-log/lock database collaborator as an
explicit argument, and when that collaborator reports no prior deletion
records and no locked clip paths, every entry the parser accepts appears in
the returned record set — the database consultation never removes eligible
files in the empty-history case. -/
theorem GetAudioFiles_empty_history_complete (entries : List DirEntry)
    (allowed : List String) (db : DB) (hdel : db.deletionRecords = [])
    (hlock : db.lockedPaths = []) :
    ∀ e ∈ entries, ∀ f, parseFileInfo allowed e.Path ⟨e.Size, e.ModTime⟩ = .ok f →
      f ∈ (GetAudioFiles entries allowed db).1 := by
  induction entries with
  | nil => intro e he; exact absurd he (by simp)
  | cons e0 rest ih =>
    intro e he f hf
    rcases List.mem_cons.mp he with rfl | hrest
    · have hupd : { f with Locked := db.lockedPaths.contains f.Path } = f := by
        obtain ⟨-, -, -, hl⟩ := parseFileInfo_ok_inv hf
        rw [hlock]
        cases f
        simp_all
      simp only [GetAudioFiles, hf, hdel]
      rw [if_neg (by simp)]
      rw [hupd]
      exact List.mem_cons_self _ _
    · have hmem := ih e hrest f hf
      simp only [GetAudioFiles]
      split
      · split
        · exact hmem
        · exact List.mem_cons_of_mem _ hmem
      · exact hmem

/-- Witness for C10: with the test's `MockDB` (no deletion records, no locked
paths) the well-formed `.wav` entry's record is in the scan result. -/
theorem GetAudioFiles_empty_history_complete_witness :
    mkClip "/t/owl_80p_20210102T150405Z.wav" "owl" 80 20210102150405 10 false ∈
      (GetAudioFiles entriesMalformed allowedFileTypes emptyDB).1 :=
  GetAudioFiles_empty_history_complete entriesMalformed allowedFileTypes emptyDB rfl rfl
    { Path := "/t/owl_80p_20210102T150405Z.wav", Size := 10, ModTime := 0 } (by decide)
    (mkClip "/t/owl_80p_20210102T150405Z.wav" "owl" 80 20210102150405 10 false) (by decide)

/-! ### Claim C4 — scan isolation (corrected) -/

theorem GetAudioFiles_length_isolation (entries : List DirEntry) (allowed : List String)
    (db : DB) (hdel : db.deletionRecords = []) :
    (GetAudioFiles entries allowed db).1.length + (GetAudioFiles entries allowed db).2.length
      = entries.length := by
  induction entries with
  | nil => simp [GetAudioFiles]
  | cons e rest ih =>
    simp only [GetAudioFiles]
    split
    · rw [hdel, if_neg (by simp)]
      dsimp only
      simp only [List.length_cons]
      omega
    · dsimp only
      simp only [List.length_cons]
      omega

theorem GetAudioFiles_complete_for_parsed (entries : List DirEntry) (allowed : List String)
    (db : DB) (hdel : db.deletionRecords = []) :
    ∀ e ∈ entries, ∀ f, parseFileInfo allowed e.Path ⟨e.Size, e.ModTime⟩ = .ok f →
      ∃ r ∈ (GetAudioFiles entries allowed db).1, r.Path = e.Path := by
  induction entries with
  | nil => intro e he; exact absurd he (by simp)
  | cons e0 rest ih =>
    intro e he f hf
    rcases List.mem_cons.mp he with rfl | hrest
    · obtain ⟨-, hpath, -, -⟩ := parseFileInfo_ok_inv hf
      simp only [GetAudioFiles, hf, hdel]
      rw [if_neg (by simp)]
      exact ⟨{ f with Locked := db.lockedPaths.contains f.Path }, List.mem_cons_self _ _, hpath⟩
    · obtain ⟨r, hr, hrp⟩ := ih e hrest f hf
      simp only [GetAudioFiles]
      split
      · split
        · exact ⟨r, hr, hrp⟩
        · exact ⟨r, List.mem_cons_of_mem _ hr, hrp⟩
      · exact ⟨r, hr, hrp⟩

/-- Counterexample to C4 as stated: in a scan over `entriesMalformed` the
file `/t/owl.wav` carries an allow-listed extension, yet no returned record
has its path (it lands in the failure list instead, its name being
malformed) — so the scan does not return one record per allow-listed file. -/
theorem GetAudioFiles_allowlisted_file_omitted :
    extAllowed allowedFileTypes (extOf (baseName "/t/owl.wav")) = true ∧
    ((GetAudioFiles entriesMalformed allowedFileTypes emptyDB).1.map (·.Path)).contains
      "/t/owl.wav" = false ∧
    ((GetAudioFiles entriesMalformed allowedFileTypes emptyDB).2.map (·.1)).contains
      "/t/owl.wav" = true := by decide

/-- C4 (amended): the scan returns, without error, exactly one record per
allow-listed *well-formed-named* file: every returned record's path has an
allowed extension, every entry the parser accepts contributes a record with
its path, and each scanned entry lands in exactly one of the record list or
the collected failure list — so a parse failure of any single entry never
aborts the scan of the remaining entries. -/
theorem GetAudioFiles_scan_contract (entries : List DirEntry) (allowed : List String)
    (db : DB) (hdel : db.deletionRecords = []) :
    ((GetAudioFiles entries allowed db).1.length +
        (GetAudioFiles entries allowed db).2.length = entries.length) ∧
    (∀ r ∈ (GetAudioFiles entries allowed db).1,
        extAllowed allowed (extOf (baseName r.Path)) = true) ∧
    (∀ e ∈ entries, ∀ f, parseFileInfo allowed e.Path ⟨e.Size, e.ModTime⟩ = .ok f →
        ∃ r ∈ (GetAudioFiles entries allowed db).1, r.Path = e.Path) :=
  ⟨GetAudioFiles_length_isolation entries allowed db hdel,
   fun _ hr => GetAudioFiles_ext_allowed hr,
   GetAudioFiles_complete_for_parsed entries allowed db hdel⟩

/-- Witness for the amended C4: over `entriesMalformed` the two entries split
into one record and one failure, and the well-formed `.wav` entry's record is
present. -/
theorem GetAudioFiles_scan_contract_witness :
    ((GetAudioFiles entriesMalformed allowedFileTypes emptyDB).1.length +
        (GetAudioFiles entriesMalformed allowedFileTypes emptyDB).2.length = 2) ∧
    (∃ r ∈ (GetAudioFiles entriesMalformed allowedFileTypes emptyDB).1,
        r.Path = "/t/owl_80p_20210102T150405Z.wav") :=
  ⟨(GetAudioFiles_scan_contract entriesMalformed allowedFileTypes emptyDB rfl).1,
   (GetAudioFiles_scan_contract entriesMalformed allowedFileTypes emptyDB rfl).2.2
     { Path := "/t/owl_80p_20210102T150405Z.wav", Size := 10, ModTime := 0 } (by decide)
     (mkClip "/t/owl_80p_20210102T150405Z.wav" "owl" 80 20210102150405 10 false) (by decide)⟩

/-! ### Claim C7 — per-file failure isolation in the executor -/

theorem deletionExecutor_counts (fs : String → Option DeleteError) (now : Int)
    (cands : List FileInfo) :
    (deletionExecutor fs now cands).deleted + (deletionExecutor fs now cands).failures.length
        = cands.length ∧
    (deletionExecutor fs now cands).audit.length = (deletionExecutor fs now cands).deleted := by
  induction cands with
  | nil => simp [deletionExecutor]
  | cons f rest ih =>
    simp only [deletionExecutor]
    split
    · dsimp only
      simp only [List.length_cons]
      omega
    · dsimp only
      simp only [List.length_cons]
      omega

theorem deletionExecutor_failure_recorded (fs : String → Option DeleteError) (now : Int)
    (cands : List FileInfo) :
    ∀ f ∈ cands, ∀ e, fs f.Path = some e →
      (f.Path, e) ∈ (deletionExecutor fs now cands).failures := by
  induction cands with
  | nil => intro f hf; exact absurd hf (by simp)
  | cons g rest ih =>
    intro f hf e he
    rcases List.mem_cons.mp hf with rfl | hrest
    · simp only [deletionExecutor, he]
      exact List.mem_cons_self _ _
    · simp only [deletionExecutor]
      split
      · exact ih f hrest e he
      · exact List.mem_cons_of_mem _ (ih f hrest e he)

theorem deletionExecutor_success_audited (fs : String → Option DeleteError) (now : Int)
    (cands : List FileInfo) :
    ∀ f ∈ cands, fs f.Path = none →
      ({ filename := baseName f.Path, deletedAt := now } : DeletionAuditEntry) ∈
        (deletionExecutor fs now cands).audit := by
  induction cands with
  | nil => intro f hf; exact absurd hf (by simp)
  | cons g rest ih =>
    intro f hf he
    rcases List.mem_cons.mp hf with rfl | hrest
    · simp only [deletionExecutor, he]
      exact List.mem_cons_self _ _
    · simp only [deletionExecutor]
      split
      · exact List.mem_cons_of_mem _ (ih f hrest he)
      · exact ih f hrest he

/-- C7: the executor attempts each candidate independently — per batch,
deleted count plus failure count equals the batch size, exactly one audit
entry exists per successful deletion, every per-file failure is recorded
against that single path while the rest are still processed, every success
is audited; and in scenario E a batch of 3 candidates whose middle removal
fails with a permission error still deletes the other two and reports
exactly that one failure. -/
theorem deletionExecutor_isolation (fs : String → Option DeleteError) (now : Int)
    (cands : List FileInfo) :
    ((deletionExecutor fs now cands).deleted +
        (deletionExecutor fs now cands).failures.length = cands.length) ∧
    ((deletionExecutor fs now cands).audit.length = (deletionExecutor fs now cands).deleted) ∧
    (∀ f ∈ cands, ∀ e, fs f.Path = some e →
        (f.Path, e) ∈ (deletionExecutor fs now cands).failures) ∧
    (∀ f ∈ cands, fs f.Path = none →
        ({ filename := baseName f.Path, deletedAt := now } : DeletionAuditEntry) ∈
          (deletionExecutor fs now cands).audit) ∧
    deletionExecutor fsScenarioE 42 candsScenarioE =
      { deleted := 2,
        failures := [("/t/e2_80p_20210102T150405Z.wav", .permissionDenied)],
        audit := [{ filename := "e1_80p_20210102T150405Z.wav", deletedAt := 42 },
                  { filename := "e3_80p_20210102T150405Z.wav", deletedAt := 42 }] } :=
  ⟨(deletionExecutor_counts fs now cands).1, (deletionExecutor_counts fs now cands).2,
   deletionExecutor_failure_recorded fs now cands,
   deletionExecutor_success_audited fs now cands, by decide⟩

/-- Witness for C7: instantiated on scenario E — the middle candidate's
permission failure is recorded against its path, and the batch splits into 2
deletions plus 1 failure. -/
theorem deletionExecutor_isolation_witness :
    ("/t/e2_80p_20210102T150405Z.wav", DeleteError.permissionDenied) ∈
      (deletionExecutor fsScenarioE 42 candsScenarioE).failures ∧
    (deletionExecutor fsScenarioE 42 candsScenarioE).deleted +
      (deletionExecutor fsScenarioE 42 candsScenarioE).failures.length = 3 :=
  ⟨(deletionExecutor_isolation fsScenarioE 42 candsScenarioE).2.2.1
      (mkClip "/t/e2_80p_20210102T150405Z.wav" "owl" 80 2 10 false) (by decide)
      DeleteError.permissionDenied (by decide),
   (deletionExecutor_isolation fsScenarioE 42 candsScenarioE).1⟩

/-! ### Claim C3 — the species quota guard (corrected) -/

theorem sumCount_filter_remove_le {cs : List FileInfo} {rem : List String} {k : Nat}
    {srt : List FileInfo} (hperm : List.Perm srt cs)
    (hmem : ∀ f ∈ srt.take k, rem.contains f.Path = true) :
    (cs.filter (fun f => !(rem.contains f.Path))).length ≤ cs.length - k := by
  have h1 : (cs.filter (fun f => !(rem.contains f.Path))).length
      = (srt.filter (fun f => !(rem.contains f.Path))).length :=
    ((hperm.filter _).length_eq).symm
  have htake : (srt.take k).filter (fun f => !(rem.contains f.Path)) = [] :=
    List.filter_eq_nil_iff.mpr (fun f hf => by rw [hmem f hf]; simp)
  have hdropLen : ((srt.drop k).filter (fun f => !(rem.contains f.Path))).length
      ≤ srt.length - k := by
    have := List.length_filter_le (fun f => !(rem.contains f.Path)) (srt.drop k)
    rw [List.length_drop] at this
    exact this
  have hsplit : srt.filter (fun f => !(rem.contains f.Path))
      = (srt.take k).filter (fun f => !(rem.contains f.Path)) ++
        (srt.drop k).filter (fun f => !(rem.contains f.Path)) := by
    rw [← List.filter_append, List.take_append_drop]
  have hlen : srt.length = cs.length := hperm.length_eq
  rw [h1, hsplit, htake]
  simp only [List.nil_append]
  omega

theorem quotaRemovalPaths_take_mem (inventory candidates : List FileInfo)
    (minF : String → Nat) (s : String) :
    ∀ f ∈ (sortNewestFirst (candidates.filter (fun f => f.Species == s))).take
        ((candidates.filter (fun f => f.Species == s)).length -
          ((inventory.filter (fun f => f.Species == s)).length - minF s)),
      (quotaRemovalPaths inventory candidates minF).contains f.Path = true := by
  intro f hf
  apply List.elem_iff.mpr
  have hfs : f ∈ sortNewestFirst (candidates.filter (fun g => g.Species == s)) :=
    List.mem_of_mem_take hf
  have hfc : f ∈ candidates.filter (fun g => g.Species == s) :=
    (sortNewestFirst_perm _).mem_iff.mp hfs
  obtain ⟨hfcand, hsp⟩ := List.mem_filter.mp hfc
  have hspec : f.Species = s := by simpa using hsp
  unfold quotaRemovalPaths
  apply List.mem_flatMap.mpr
  refine ⟨s, List.mem_dedup.mpr (List.mem_map.mpr ⟨f, hfcand, hspec⟩), ?_⟩
  exact List.mem_map_of_mem _ hf

theorem speciesQuotaGuard_species_deletions_le (inventory candidates : List FileInfo)
    (minF : String → Nat) (s : String) :
    ((speciesQuotaGuard inventory candidates minF).filter
        (fun f => f.Species == s)).length ≤
      (inventory.filter (fun f => f.Species == s)).length - minF s := by
  have hcomm : (speciesQuotaGuard inventory candidates minF).filter
      (fun f => f.Species == s)
      = (candidates.filter (fun f => f.Species == s)).filter
          (fun f => !((quotaRemovalPaths inventory candidates minF).contains f.Path)) := by
    unfold speciesQuotaGuard
    rw [List.filter_filter, List.filter_filter]
    congr 1
    funext f
    exact Bool.and_comm _ _
  have hbound := sumCount_filter_remove_le
    (sortNewestFirst_perm (candidates.filter (fun f => f.Species == s)))
    (quotaRemovalPaths_take_mem inventory candidates minF s)
  rw [hcomm]
  omega

/-- Counterexample to C3 as stated: on scenario C's inventory (three "owl"
clips and one "duck" clip, minimum 1, all four proposed by age) the guard
does not leave the three "owl" clips as the final candidates — deleting all
three would drop "owl" to zero survivors, below its minimum — and on a
one-clip species with a configured minimum of 2 the post-deletion surviving
count (1) stays below the configured minimum, so "surviving count ≥
configured minimum" cannot hold universally either. -/
theorem speciesQuotaGuard_claim_counterexample :
    ((speciesQuotaGuard invScenarioC invScenarioC (fun _ => 1)).map (·.Path) ≠
        ["/test/owl1_80p_20200102T150405Z.wav", "/test/owl2_80p_20200103T150405Z.wav",
         "/test/owl3_80p_20200104T150405Z.wav"]) ∧
    ((invSingleDuck.filter (fun f => f.Species == "duck")).length -
        ((speciesQuotaGuard invSingleDuck invSingleDuck (fun _ => 2)).filter
            (fun f => f.Species == "duck")).length < 2) := by decide

/-- C3 (amended): the quota guard removes candidates per species — most
recently captured first — so that every species' post-deletion surviving
count is at least the smaller of its configured minimum and its inventory
count; on scenario C it removes the single "duck" clip and the newest "owl"
clip, leaving the two oldest "owl" clips as final candidates (duck's one
clip and one owl clip are preserved). -/
theorem speciesQuotaGuard_quota_preserved :
    (∀ (inventory candidates : List FileInfo) (minF : String → Nat) (s : String),
        min (minF s) (inventory.filter (fun f => f.Species == s)).length ≤
          (inventory.filter (fun f => f.Species == s)).length -
            ((speciesQuotaGuard inventory candidates minF).filter
                (fun f => f.Species == s)).length) ∧
    (speciesQuotaGuard invScenarioC invScenarioC (fun _ => 1)).map (·.Path) =
      ["/test/owl1_80p_20200102T150405Z.wav", "/test/owl2_80p_20200103T150405Z.wav"] := by
  constructor
  · intro inventory candidates minF s
    have h := speciesQuotaGuard_species_deletions_le inventory candidates minF s
    omega
  · decide

/-! ### Claim C6 — the usage policy (selection order, stopping, shortfall) -/

theorem sumSizes_nil : sumSizes [] = 0 := rfl

theorem sumSizes_cons (f : FileInfo) (l : List FileInfo) :
    sumSizes (f :: l) = f.Size + sumSizes l := by
  simp [sumSizes]

theorem sumSizes_append (a b : List FileInfo) :
    sumSizes (a ++ b) = sumSizes a + sumSizes b := by
  simp [sumSizes]

theorem sumSizes_perm {a b : List FileInfo} (h : List.Perm a b) :
    sumSizes a = sumSizes b :=
  List.Perm.sum_eq (List.Perm.map _ h)

theorem selectOldest_shortfall (l : List FileInfo) (n : Nat) :
    (selectOldest l n).2 = n - sumSizes (selectOldest l n).1 := by
  induction l generalizing n with
  | nil => cases n <;> simp [selectOldest, sumSizes]
  | cons f rest ih =>
    cases n with
    | zero => simp [selectOldest, sumSizes]
    | succ m =>
      simp only [selectOldest]
      rw [ih (m + 1 - f.Size), sumSizes_cons]
      omega

theorem selectOldest_exhaust (l : List FileInfo) (n : Nat)
    (h : (selectOldest l n).2 ≠ 0) : (selectOldest l n).1 = l := by
  induction l generalizing n with
  | nil => cases n <;> rfl
  | cons f rest ih =>
    cases n with
    | zero => exact absurd rfl h
    | succ m =>
      simp only [selectOldest] at h ⊢
      rw [ih (m + 1 - f.Size) h]

theorem selectOldest_zero (l : List FileInfo) : selectOldest l 0 = ([], 0) := by
  cases l <;> rfl

theorem selectOldest_minimal (l : List FileInfo) (n : Nat) :
    ∀ p t, p ++ t = (selectOldest l n).1 → t ≠ [] → sumSizes p < n := by
  induction l generalizing n with
  | nil =>
    intro p t hpt ht
    cases n with
    | zero =>
      obtain ⟨-, ht0⟩ := List.append_eq_nil.mp hpt
      exact absurd ht0 ht
    | succ m =>
      obtain ⟨-, ht0⟩ := List.append_eq_nil.mp hpt
      exact absurd ht0 ht
  | cons f rest ih =>
    intro p t hpt ht
    cases n with
    | zero =>
      obtain ⟨-, ht0⟩ := List.append_eq_nil.mp hpt
      exact absurd ht0 ht
    | succ m =>
      simp only [selectOldest] at hpt
      cases p with
      | nil => simp [sumSizes_nil]
      | cons q p' =>
        rw [List.cons_append] at hpt
        have hq : q = f := (List.cons.injEq _ _ _ _ ▸ hpt).1
        have hrest : p' ++ t = (selectOldest rest (m + 1 - f.Size)).1 :=
          (List.cons.injEq _ _ _ _ ▸ hpt).2
        by_cases hz : m + 1 - f.Size = 0
        · rw [hz, selectOldest_zero] at hrest
          obtain ⟨-, ht0⟩ := List.append_eq_nil.mp hrest
          exact absurd ht0 ht
        · have hlt := ih (m + 1 - f.Size) p' t hrest ht
          rw [hq, sumSizes_cons]
          omega

instance : IsTotal FileInfo oldestFirstRel :=
  ⟨fun a b => by
    unfold oldestFirstRel
    rcases lt_trichotomy a.Timestamp b.Timestamp with h | h | h
    · exact Or.inl (Or.inl h)
    · rcases le_total a.Path b.Path with hp | hp
      · exact Or.inl (Or.inr ⟨h, hp⟩)
      · exact Or.inr (Or.inr ⟨h.symm, hp⟩)
    · exact Or.inr (Or.inl h)⟩

instance : IsTrans FileInfo oldestFirstRel :=
  ⟨fun a b c hab hbc => by
    unfold oldestFirstRel at hab hbc ⊢
    rcases hab with h1 | ⟨h1, hp1⟩
    · rcases hbc with h2 | ⟨h2, hp2⟩
      · exact Or.inl (h1.trans h2)
      · exact Or.inl (h2 ▸ h1)
    · rcases hbc with h2 | ⟨h2, hp2⟩
      · exact Or.inl (by rw [h1]; exact h2)
      · exact Or.inr ⟨h1.trans h2, hp1.trans hp2⟩⟩

theorem sortOldestFirst_sorted (l : List FileInfo) :
    List.Sorted oldestFirstRel (sortOldestFirst l) :=
  List.sorted_insertionSort _ l

/-- C6: the usage policy's selection is sorted oldest-first (ties by path)
and is a leading segment of the oldest-first ordering of the eligible
population; it never selects more records than the population holds; it
selects nothing when the threshold is already met; when it reports no
shortfall the projected free space meets the threshold; every proper leading
segment of the selection leaves the threshold unmet (never more than
needed); and when even the whole eligible population cannot reach the
threshold it returns exactly that population and reports the shortfall. -/
theorem usageBasedSelection_contract (files : List FileInfo) (free thr : Nat) :
    List.Sorted oldestFirstRel (usageBasedSelection files free thr).1 ∧
    (∃ t, (usageBasedSelection files free thr).1 ++ t = sortOldestFirst files) ∧
    ((usageBasedSelection files free thr).1.length ≤ files.length) ∧
    (thr ≤ free → (usageBasedSelection files free thr).1 = []) ∧
    ((usageBasedSelection files free thr).2 = 0 →
      thr ≤ free + sumSizes (usageBasedSelection files free thr).1) ∧
    (∀ p t, p ++ t = (usageBasedSelection files free thr).1 → t ≠ [] →
      free + sumSizes p < thr) ∧
    (free + sumSizes files < thr →
      List.Perm (usageBasedSelection files free thr).1 files ∧
      (usageBasedSelection files free thr).2 = thr - (free + sumSizes files)) := by
  unfold usageBasedSelection
  obtain ⟨t0, ht0⟩ := selectOldest_append_eq (sortOldestFirst files) (thr - free)
  have hshort := selectOldest_shortfall (sortOldestFirst files) (thr - free)
  have hsortlen : (sortOldestFirst files).length = files.length :=
    (sortOldestFirst_perm files).length_eq
  have hsumsort : sumSizes (sortOldestFirst files) = sumSizes files :=
    sumSizes_perm (sortOldestFirst_perm files)
  refine ⟨?_, ⟨t0, ht0⟩, ?_, ?_, ?_, ?_, ?_⟩
  · have hsub := List.sublist_append_left
      (selectOldest (sortOldestFirst files) (thr - free)).1 t0
    rw [ht0] at hsub
    exact (sortOldestFirst_sorted files).sublist hsub
  · have hlen := congrArg List.length ht0
    rw [List.length_append] at hlen
    omega
  · intro h
    rw [Nat.sub_eq_zero_of_le h, selectOldest_zero]
  · intro h
    rw [h] at hshort
    omega
  · intro p t hpt ht
    have := selectOldest_minimal (sortOldestFirst files) (thr - free) p t hpt ht
    omega
  · intro h
    have hsum0 := congrArg sumSizes ht0
    rw [sumSizes_append] at hsum0
    have hne : (selectOldest (sortOldestFirst files) (thr - free)).2 ≠ 0 := by omega
    have hall := selectOldest_exhaust _ _ hne
    refine ⟨?_, ?_⟩
    · rw [hall]
      exact sortOldestFirst_perm files
    · rw [hall] at hshort
      omega

/-- Witness for C6: on a three-clip population (100 bytes each, listed out of
age order) with 50 free bytes — at threshold 200 the singleton leading
segment of the selection leaves the threshold unmet (strict stopping), and at
the unreachable threshold 1000 the whole population is selected with the
650-byte shortfall reported. -/
theorem usageBasedSelection_contract_witness :
    (50 + sumSizes [mkClip "/t/u1_80p_20210101T150405Z.wav" "owl" 80 10 100 false] < 200) ∧
    List.Perm (usageBasedSelection invUsage 50 1000).1 invUsage ∧
    (usageBasedSelection invUsage 50 1000).2 = 1000 - (50 + sumSizes invUsage) :=
  ⟨(usageBasedSelection_contract invUsage 50 200).2.2.2.2.2.1
      [mkClip "/t/u1_80p_20210101T150405Z.wav" "owl" 80 10 100 false]
      [mkClip "/t/u2_80p_20210102T150405Z.wav" "owl" 80 20 100 false]
      (by decide) (by decide),
   ((usageBasedSelection_contract invUsage 50 1000).2.2.2.2.2.2 (by decide)).1,
   ((usageBasedSelection_contract invUsage 50 1000).2.2.2.2.2.2 (by decide)).2⟩
